import Mathlib

/-!
Verification of the Brand-Mention Analytics Engine of `geo_analytics`
(`backend/app/services/analytics_service.py`), shallowly embedded in Lean.

Texts are modelled as `List Char`.  Python's `str.lower` is modelled with
`Char.toLower` (ASCII case mapping), Python's `\s` / `str.split()` /
`str.strip()` whitespace with `pyIsSpace`, and the regex word class `\w`
with `isWordChar` (ASCII letters, digits and underscore).  Regex matching
of the pattern `\b<escaped literal>\b` with `re.IGNORECASE` is modelled
directly as literal case-insensitive matching guarded by word boundaries,
scanning left to right over non-overlapping matches exactly as
`re.finditer` does.
-/

namespace GeoAnalytics

/-- Python whitespace as tested by `\s`, `str.split()` and `str.strip()`
(ASCII part): space, tab, newline, carriage return, vertical tab, form feed. -/
def pyIsSpace (c : Char) : Bool :=
  c = ' ' || c = '\t' || c = '\n' || c = '\r' || c = '\x0b' || c = '\x0c'

/-- Regex word character `\w` (ASCII part): letters, digits, underscore. -/
def isWordChar (c : Char) : Bool :=
  c.isAlphanum || c = '_'

/-- Python `str.strip()`: drop leading and trailing whitespace. -/
def pyStrip (l : List Char) : List Char :=
  ((l.dropWhile pyIsSpace).reverse.dropWhile pyIsSpace).reverse

/-- `re.sub(r'\s+', ' ', s)`: collapse every maximal whitespace run to a
single space. -/
def collapseWs : List Char → List Char
  | [] => []
  | a :: rest =>
    match rest with
    | [] => [if pyIsSpace a then ' ' else a]
    | b :: _ =>
      if pyIsSpace a && pyIsSpace b then collapseWs rest
      else (if pyIsSpace a then ' ' else a) :: collapseWs rest

/-- Python `str.split()` (no separator): split on whitespace runs,
returning no empty tokens.  `acc` holds the current token reversed. -/
def splitWsAux : List Char → List Char → List (List Char)
  | [], acc => if acc.isEmpty then [] else [acc.reverse]
  | c :: cs, acc =>
    if pyIsSpace c then
      if acc.isEmpty then splitWsAux cs [] else acc.reverse :: splitWsAux cs []
    else splitWsAux cs (c :: acc)

def splitWs (l : List Char) : List (List Char) :=
  splitWsAux l []

/-- `' '.join(words)`. -/
def joinWords : List (List Char) → List Char
  | [] => []
  | [w] => w
  | w :: ws => w ++ ' ' :: joinWords ws

/-- The business-suffix list of `AnalyticsService._clean_brand_name`. -/
def suffixes : List (List Char) :=
  ["inc", "llc", "ltd", "corp", "corporation", "company", "co",
   "restaurant", "cafe", "bar", "pub", "grill", "kitchen",
   "services", "solutions", "group", "international", "global"].map String.data

/-- The stop-word set of `AnalyticsService.__init__`. -/
def stopWords : List (List Char) :=
  ["the", "a", "an", "and", "or", "but", "in", "on", "at", "to", "for",
   "of", "with", "by", "from", "up", "about", "into", "through", "during",
   "before", "after", "above", "below", "between", "is", "are", "was", "were",
   "been", "be", "have", "has", "had", "do", "does", "did", "will", "would",
   "could", "should", "may", "might", "must", "can", "restaurant", "company",
   "business", "service", "shop", "store", "best", "good", "great", "near",
   "me", "my", "you", "your", "they", "their", "them", "we", "our", "us"].map String.data

/-- The character-keeping predicate of `re.sub(r'[^\w\s\'-]', ' ', s)`:
kept characters are word characters, whitespace, apostrophe and hyphen. -/
def keepChar (c : Char) : Bool :=
  isWordChar c || pyIsSpace c || c = '\'' || c = '-'

/-- The token filter of `_clean_brand_name`: not a suffix, not a stop word,
length strictly greater than 1. -/
def keepWord (w : List Char) : Bool :=
  ¬ w ∈ suffixes ∧ ¬ w ∈ stopWords ∧ w.length > 1

/-- `AnalyticsService._clean_brand_name` on `List Char`:
lower-case, strip, replace every character outside `[\w\s'-]` by a space,
split on whitespace, drop suffix/stop-word/short tokens, re-join with
single spaces. -/
def cleanBrandNameL (brand_name : List Char) : List Char :=
  let lowered := brand_name.map Char.toLower
  let stripped := pyStrip lowered
  let subbed := stripped.map (fun c => if keepChar c then c else ' ')
  let words := splitWs subbed
  let filtered_words := words.filter keepWord
  joinWords filtered_words

/-- `AnalyticsService._clean_brand_name`. -/
def cleanBrandName (brand_name : String) : String :=
  ⟨cleanBrandNameL brand_name.data⟩

/-- Case-insensitive literal match of `pat` at offset `i` of `text`
(`re.IGNORECASE` with an escaped-literal pattern).  The equality forces
`i + pat.length ≤ text.length`. -/
def literalMatchAt (text pat : List Char) (i : Nat) : Bool :=
  ((text.drop i).take pat.length).map Char.toLower = pat.map Char.toLower

/-- Whether offset `i` of `text` holds a word character (out of range
counts as non-word). -/
def isWordCharAt (text : List Char) (i : Nat) : Bool :=
  match text.get? i with
  | some c => isWordChar c
  | none => false

/-- Regex `\b` at offset `i`: the word-character status changes between
the character before `i` and the character at `i`. -/
def wordBoundaryAt (text : List Char) (i : Nat) : Bool :=
  (if i = 0 then false else isWordCharAt text (i - 1)) != isWordCharAt text i

/-- A match of the pattern `\b<pat>\b` starting at offset `i`. -/
def matchAt (text pat : List Char) (i : Nat) : Bool :=
  wordBoundaryAt text i && literalMatchAt text pat i
    && wordBoundaryAt text (i + pat.length)

/-- `re.finditer` scan: left-to-right, non-overlapping; after a match at
`i` the scan resumes at `i + pat.length`.  `fuel` only bounds recursion;
`text.length + 1` steps always suffice for a non-empty pattern. -/
def findMatchesAux (text pat : List Char) : Nat → Nat → List Nat
  | 0, _ => []
  | fuel + 1, i =>
    if i + pat.length ≤ text.length then
      if matchAt text pat i then
        i :: findMatchesAux text pat fuel (i + pat.length)
      else
        findMatchesAux text pat fuel (i + 1)
    else []

/-- All match start offsets of `\b<pat>\b` in `text`, in order. -/
def findMatches (text pat : List Char) : List Nat :=
  findMatchesAux text pat (text.length + 1) 0

/-- The dictionary returned by `AnalyticsService._count_brand_mentions`. -/
structure MentionDict where
  mention_count : Nat
  mention_positions : List Nat
  context_snippets : List String
deriving DecidableEq, Repr

/-- Context extraction for one match starting at `start` with match length
`patLen`: `text[max(0, start-50) : min(len(text), start+patLen+50)]`,
then `.strip()`, then collapse whitespace runs (`re.sub(r'\s+', ' ', _)`).
(Note `start - 50` in `Nat` is exactly `max(0, start-50)`.) -/
def snippetAt (text : List Char) (patLen start : Nat) : List Char :=
  let start_pos := start - 50
  let end_pos := min text.length (start + patLen + 50)
  collapseWs (pyStrip ((text.drop start_pos).take (end_pos - start_pos)))

/-- `AnalyticsService._count_brand_mentions` on a `List Char` text. -/
def countBrandMentionsL (text : List Char) (brand_name : String) : MentionDict :=
  let clean_brand_name := cleanBrandNameL brand_name.data
  if clean_brand_name.isEmpty ∨ clean_brand_name.length < 2 then
    { mention_count := 0, mention_positions := [], context_snippets := [] }
  else
    let ms := findMatches text clean_brand_name
    { mention_count := ms.length
      mention_positions := ms
      context_snippets :=
        ms.map (fun p => ⟨snippetAt text clean_brand_name.length p⟩) }

/-- `AnalyticsService._count_brand_mentions`. -/
def countBrandMentions (text : String) (brand_name : String) : MentionDict :=
  countBrandMentionsL text.data brand_name

/-! ## Data model (`backend/app/models/schemas.py`), restricted to the
fields the analytics service reads.  `datetime` values are opaque here and
are modelled as `Nat` timestamps. -/

inductive LLMProvider where
  | openai
  | anthropic
  | gemini
deriving DecidableEq, Repr

/-- The string value of the `LLMProvider` enum member, used when the
provider is interpolated into the model-group key. -/
def LLMProvider.value : LLMProvider → String
  | .openai => "openai"
  | .anthropic => "anthropic"
  | .gemini => "gemini"

structure User where
  id : String
  business_name : String
  sector : String
  location : String
deriving DecidableEq, Repr

structure Competitor where
  id : String
  name : String
deriving DecidableEq, Repr

structure LLMResponse where
  id : String
  user_id : String
  prompt_id : String
  provider : LLMProvider
  model : String
  response_content : String
  created_at : Nat
deriving DecidableEq, Repr

structure BrandMention where
  brand_name : String
  mention_count : Nat
  mention_positions : List Nat
  context_snippets : List String
deriving DecidableEq, Repr

/-- A JSON value, as produced by `json.loads` on a successful parse of the
enrichment reply. -/
inductive JsonValue where
  | null
  | bool (b : Bool)
  | num (n : Int)
  | str (s : String)
  | arr (items : List JsonValue)
  | obj (fields : List (String × JsonValue))

/-- The `analysis_metadata` dictionary of an `AnalyticsResult`:
empty when enrichment is disabled, the parsed JSON object on success,
`{"raw_analysis": <reply text>}` on a JSON parse failure, and
`{"error": str(e)}` on any other failure of the model call. -/
inductive AnalysisMetadata where
  | empty
  | parsed (data : JsonValue)
  | rawAnalysis (content : String)
  | errorInfo (message : String)

structure AnalyticsResult where
  id : String
  user_id : String
  prompt_id : String
  llm_response_id : String
  user_brand_mentions : Nat
  competitor_mentions : List (String × Nat)
  total_mentions : Nat
  mention_details : List BrandMention
  analysis_metadata : AnalysisMetadata
  created_at : Nat

/-! ## Response Analyzer (`AnalyticsService.analyze_response`) -/

/-- Python-dict insertion `d[k] = v`: update the value in place if the key
is present, otherwise append the pair at the end. -/
def dictInsert (k : String) (v : Nat) : List (String × Nat) → List (String × Nat)
  | [] => [(k, v)]
  | (k', v') :: rest =>
    if k' = k then (k, v) :: rest else (k', v') :: dictInsert k v rest

/-- Python-dict lookup. -/
def dictLookup (k : String) : List (String × Nat) → Option Nat
  | [] => none
  | (k', v') :: rest => if k' = k then some v' else dictLookup k rest

/-- `sum(d.values())`. -/
def sumValues (d : List (String × Nat)) : Nat :=
  (d.map Prod.snd).sum

/-- The competitor loop of `analyze_response`: for each competitor, count
its mentions, store `competitor_mentions[competitor.name] = count`, and
append a `BrandMention` detail when the count is positive. -/
def competitorLoop (response_content : List Char) :
    List Competitor → List (String × Nat) → List BrandMention →
    List (String × Nat) × List BrandMention
  | [], competitor_mentions, details => (competitor_mentions, details)
  | competitor :: rest, competitor_mentions, details =>
    let mentions := countBrandMentionsL response_content competitor.name
    let competitor_mentions' :=
      dictInsert competitor.name mentions.mention_count competitor_mentions
    let details' :=
      if mentions.mention_count > 0 then
        details ++ [{ brand_name := competitor.name
                      mention_count := mentions.mention_count
                      mention_positions := mentions.mention_positions
                      context_snippets := mentions.context_snippets }]
      else details
    competitorLoop response_content rest competitor_mentions' details'

/-- `AnalyticsService._enhanced_analysis`, abstracted over its two external
effects: the model call (an `Except` capturing either the reply content or
the exception message of a failed call) and `json.loads` (a partial parse
function).  Mirrors the source's control flow: a failed call yields
`{"error": str(e)}`; an unparsable reply yields
`{"raw_analysis": content}`; otherwise the parsed data is returned. -/
def enhancedAnalysisResult (parse : String → Option JsonValue)
    (model_reply : Except String String) : AnalysisMetadata :=
  match model_reply with
  | .error e => .errorInfo e
  | .ok content =>
    match parse content with
    | some analysis_data => .parsed analysis_data
    | none => .rawAnalysis content

/-- `AnalyticsService.analyze_response`.  The optional LLM enrichment is
abstracted exactly as in `enhancedAnalysisResult`; everything else follows
the source line by line (lower-case the content once, count owner and
competitor mentions, build details with owner evidence first, compute
`total_mentions`, attach metadata only when `enhanced_analysis` is on and
an API key is supplied). -/
def analyzeResponse (parse : String → Option JsonValue)
    (user : User) (competitors : List Competitor) (llm_response : LLMResponse)
    (api_key : Option String) (enhanced_analysis : Bool)
    (model_reply : Except String String) : AnalyticsResult :=
  let response_content := llm_response.response_content.data.map Char.toLower
  let user_brand_mentions := countBrandMentionsL response_content user.business_name
  let loop_out := competitorLoop response_content competitors [] []
  let competitor_mentions := loop_out.1
  let competitor_mention_details := loop_out.2
  let user_mention_details : List BrandMention :=
    if user_brand_mentions.mention_count > 0 then
      [{ brand_name := user.business_name
         mention_count := user_brand_mentions.mention_count
         mention_positions := user_brand_mentions.mention_positions
         context_snippets := user_brand_mentions.context_snippets }]
    else []
  let total_mentions := user_brand_mentions.mention_count + sumValues competitor_mentions
  let analysis_metadata :=
    if enhanced_analysis && api_key.isSome then
      enhancedAnalysisResult parse model_reply
    else .empty
  { id := ""
    user_id := user.id
    prompt_id := llm_response.prompt_id
    llm_response_id := llm_response.id
    user_brand_mentions := user_brand_mentions.mention_count
    competitor_mentions := competitor_mentions
    total_mentions := total_mentions
    mention_details := user_mention_details ++ competitor_mention_details
    analysis_metadata := analysis_metadata
    created_at := llm_response.created_at }

/-! ## Batch Analyzer (`AnalyticsService.batch_analyze_responses`)

One `analyze_response` task is created per response and awaited with
`asyncio.gather(*tasks, return_exceptions=True)`, which yields one outcome
per task **in input order**: either the `AnalyticsResult` or the raised
exception.  The per-item outcome is modelled by
`analyze_one : LLMResponse → Except String AnalyticsResult` (errors stand
for tasks that raised).  The loop then appends the non-exception outcomes
in order, skipping the exceptions. -/

def batchAnalyzeResponses
    (analyze_one : LLMResponse → Except String AnalyticsResult)
    (llm_responses : List LLMResponse) : List AnalyticsResult :=
  let results := llm_responses.map analyze_one
  results.filterMap Except.toOption

/-! ## Metrics Aggregator (`AnalyticsService.calculate_performance_metrics`)

Python float division over counts is modelled by exact rational
division. -/

structure TopCompetitor where
  name : String
  total_mentions : Nat
  mention_rate : Rat

/-- The metrics dictionary of `calculate_performance_metrics` (the derived
`performance_summary` display string is not modelled). -/
structure PerformanceMetrics where
  total_responses : Nat
  user_mention_rate : Rat
  user_mentions_per_response : Rat
  average_mentions_per_response : Rat
  top_competitors : List TopCompetitor
  total_competitor_mentions : Nat
  unique_competitors_mentioned : Nat

/-- `Counter` update `counter[k] += v`: add to the existing total if the key
is present, otherwise append the pair (insertion order preserved). -/
def counterAdd (k : String) (v : Nat) : List (String × Nat) → List (String × Nat)
  | [] => [(k, v)]
  | (k', v') :: rest =>
    if k' = k then (k', v' + v) :: rest else (k', v') :: counterAdd k v rest

/-- Stable insert for a descending sort by count: the new element goes in
front of the first element whose count is not larger, so equal counts keep
their first-seen order. -/
def insertByCountDesc (x : String × Nat) : List (String × Nat) → List (String × Nat)
  | [] => [x]
  | y :: ys => if y.2 ≤ x.2 then x :: y :: ys else y :: insertByCountDesc x ys

/-- Stable descending sort by count, as `Counter.most_common` performs
(`sorted(items, key=itemgetter(1), reverse=True)`, a stable sort). -/
def sortByCountDesc : List (String × Nat) → List (String × Nat)
  | [] => []
  | x :: xs => insertByCountDesc x (sortByCountDesc xs)

/-- `Counter.most_common(n)`. -/
def mostCommon (counter : List (String × Nat)) (n : Nat) : List (String × Nat) :=
  (sortByCountDesc counter).take n

/-- `AnalyticsService.calculate_performance_metrics`. -/
def calculatePerformanceMetrics (analytics_results : List AnalyticsResult) :
    PerformanceMetrics :=
  if analytics_results.isEmpty then
    { total_responses := 0
      user_mention_rate := 0
      user_mentions_per_response := 0
      average_mentions_per_response := 0
      top_competitors := []
      total_competitor_mentions := 0
      unique_competitors_mentioned := 0 }
  else
    let total_responses := analytics_results.length
    let total_user_mentions :=
      (analytics_results.map AnalyticsResult.user_brand_mentions).sum
    let responses_with_user_mentions :=
      analytics_results.countP (fun result => result.user_brand_mentions > 0)
    let all_competitor_mentions :=
      analytics_results.foldl
        (fun counter result =>
          result.competitor_mentions.foldl
            (fun counter kv => counterAdd kv.1 kv.2 counter) counter)
        []
    let top_competitors :=
      (mostCommon all_competitor_mentions 10).map (fun kv =>
        { name := kv.1
          total_mentions := kv.2
          mention_rate := (kv.2 : Rat) / (total_responses : Rat) })
    { total_responses := total_responses
      user_mention_rate :=
        if total_responses > 0 then
          (responses_with_user_mentions : Rat) / (total_responses : Rat)
        else 0
      user_mentions_per_response :=
        if total_responses > 0 then
          (total_user_mentions : Rat) / (total_responses : Rat)
        else 0
      average_mentions_per_response :=
        if total_responses > 0 then
          ((analytics_results.map AnalyticsResult.total_mentions).sum : Rat)
            / (total_responses : Rat)
        else 0
      top_competitors := top_competitors
      total_competitor_mentions := sumValues all_competitor_mentions
      unique_competitors_mentioned := all_competitor_mentions.length }

/-! ## Model Comparator (`AnalyticsService.compare_model_performance`) -/

/-- The group key `f"{llm_response.provider}_{llm_response.model}"`. -/
def modelKeyOf (llm_response : LLMResponse) : String :=
  llm_response.provider.value ++ "_" ++ llm_response.model

/-- Append a result to its model group, creating the group at the end of
the dictionary if the key is new. -/
def groupsAdd (k : String) (result : AnalyticsResult) :
    List (String × List AnalyticsResult) → List (String × List AnalyticsResult)
  | [] => [(k, [result])]
  | (k', rs) :: rest =>
    if k' = k then (k', rs ++ [result]) :: rest
    else (k', rs) :: groupsAdd k result rest

/-- The grouping loop of `compare_model_performance`: resolve each result's
response by id with `next(...)` (first match), skip unresolved results,
and append resolved results to their `(provider, model)` group. -/
def groupByModel (llm_responses : List LLMResponse) :
    List AnalyticsResult → List (String × List AnalyticsResult) →
    List (String × List AnalyticsResult)
  | [], model_groups => model_groups
  | result :: rest, model_groups =>
    match llm_responses.find? (fun r => r.id == result.llm_response_id) with
    | none => groupByModel llm_responses rest model_groups
    | some llm_response =>
      groupByModel llm_responses rest
        (groupsAdd (modelKeyOf llm_response) result model_groups)

/-- `AnalyticsService.compare_model_performance`. -/
def compareModelPerformance (analytics_results : List AnalyticsResult)
    (llm_responses : List LLMResponse) :
    List (String × PerformanceMetrics) :=
  let model_groups := groupByModel llm_responses analytics_results []
  model_groups.map (fun kv => (kv.1, calculatePerformanceMetrics kv.2))

/-! ## Auxiliary notions used by the statements -/

/-- No two consecutive whitespace characters (hence no whitespace run of
length two or more). -/
def noDoubleWs : List Char → Bool
  | a :: b :: rest => (!(pyIsSpace a && pyIsSpace b)) && noDoubleWs (b :: rest)
  | _ => true

/-- Total number of grouped records across all model groups. -/
def sumGroupSizes (groups : List (String × List AnalyticsResult)) : Nat :=
  (groups.map (fun kv => kv.2.length)).sum

/-! ## Concrete fixtures used by witnesses and counterexamples -/

def demoUser : User :=
  { id := "u1", business_name := "Joe's Pizza", sector := "food", location := "London" }

def demoCompetitor : Competitor := { id := "c1", name := "Pizza Hut" }

def demoResponse (i : String) (content : String) : LLMResponse :=
  { id := i, user_id := "u1", prompt_id := "p1", provider := .openai,
    model := "gpt-4o-mini", response_content := content, created_at := 0 }

def demoResp1 : LLMResponse :=
  demoResponse "r1" "Joe's Pizza is great, better than Pizza Hut and Pizza Hut again."

def demoResp2 : LLMResponse := demoResponse "r2" "no brands here"

def demoResp3 : LLMResponse := demoResponse "r3" "Pizza Hut only"

/-- A JSON parser that rejects everything, standing in for `json.loads`
on malformed replies. -/
def parseNone : String → Option JsonValue := fun _ => none

/-- Per-item analysis outcome in which the response with id `"r2"` raises
and every other response analyzes successfully (no enrichment, as in
batch mode). -/
def demoAnalyzeOne (r : LLMResponse) : Except String AnalyticsResult :=
  if r.id = "r2" then .error "analysis failed"
  else .ok (analyzeResponse parseNone demoUser [demoCompetitor] r none false (.error ""))

/-- A synthetic `AnalyticsResult` with a given owner mention count. -/
def demoRecord (n : Nat) : AnalyticsResult :=
  { id := "", user_id := "u1", prompt_id := "p1", llm_response_id := "r1",
    user_brand_mentions := n, competitor_mentions := [], total_mentions := n,
    mention_details := [], analysis_metadata := .empty, created_at := 0 }

/-- Owner mention counts `[1, 0, 2, 0]`, spec §8's aggregation scenario. -/
def demoRecords : List AnalyticsResult :=
  [demoRecord 1, demoRecord 0, demoRecord 2, demoRecord 0]

/-- A 102-character text: the brand `"ab"` surrounded by 50 hyphens on
each side (hyphens are neither word characters nor whitespace). -/
def snippetCexText : String :=
  ⟨List.replicate 50 '-' ++ 'a' :: 'b' :: List.replicate 50 '-'⟩

/-! # Theorems -/

/-- **C4**: for every brand name whose normalized form has length less
than 2 and every text, `_count_brand_mentions` returns the zero-evidence
value (count 0, no positions, no snippets), and this is an ordinary
return, not an error: the guard short-circuits before any scan. -/
theorem C4_unmatchable_name_zero_evidence (text brand_name : String)
    (h : (cleanBrandName brand_name).length < 2) :
    countBrandMentions text brand_name =
      { mention_count := 0, mention_positions := [], context_snippets := [] } := by
  have h' : (cleanBrandNameL brand_name.data).length < 2 := h
  simp only [countBrandMentions, countBrandMentionsL]
  rw [if_pos (Or.inr h')]

theorem C4_unmatchable_name_zero_evidence_witness :
    (cleanBrandName "Cafe").length < 2 ∧
      countBrandMentions "any text about cafes" "Cafe" =
        { mention_count := 0, mention_positions := [], context_snippets := [] } :=
  ⟨by decide, C4_unmatchable_name_zero_evidence "any text about cafes" "Cafe" (by decide)⟩

/-- **C2, counterexample**: matching the brand name `"Cafe"` against the
lower-cased text `"best cafe in town"` yields zero mentions, not one:
`"cafe"` is on `_clean_brand_name`'s business-suffix list, so the
normalized name is empty and the brand is unmatchable. -/
theorem C2_cafe_counterexample :
    (countBrandMentions "best cafe in town" "Cafe").mention_count = 0 ∧
      ¬ (countBrandMentions "best cafe in town" "Cafe").mention_count = 1 := by
  decide

/-- **C2, amended**: `"Cafe"` normalizes to the empty string (the token
`"cafe"` is stripped as a business suffix), so matching it yields zero
mentions against both texts; word-boundary matching itself never matches
across token boundaries, as exhibited by the surviving brand name
`"Mocha"`: zero mentions inside `"mochaccino"`, exactly one in
`"best mocha in town"`. -/
theorem C2_word_boundary_amended :
    cleanBrandName "Cafe" = "" ∧
    (countBrandMentions "cafeteria" "Cafe").mention_count = 0 ∧
    (countBrandMentions "best cafe in town" "Cafe").mention_count = 0 ∧
    (countBrandMentions "mochaccino" "Mocha").mention_count = 0 ∧
    (countBrandMentions "best mocha in town" "Mocha").mention_count = 1 := by
  decide

/-- The kept results plus the skipped exceptions account for every task
outcome of the batch loop. -/
theorem length_filterMap_toOption (l : List (Except String AnalyticsResult)) :
    (l.filterMap Except.toOption).length
        + l.countP (fun r => r.toOption.isNone) = l.length := by
  induction l with
  | nil => simp
  | cons x l ih =>
    cases x with
    | ok a =>
      have h1 : List.filterMap Except.toOption (Except.ok a :: l)
          = a :: List.filterMap Except.toOption l := rfl
      have h2 : List.countP (fun r => r.toOption.isNone) (Except.ok a :: l)
          = List.countP (fun r => r.toOption.isNone) l := rfl
      rw [h1, h2, List.length_cons, List.length_cons]
      omega
    | error e =>
      have h1 : List.filterMap Except.toOption (Except.error e :: l)
          = List.filterMap Except.toOption l := rfl
      have hp : ((Except.error e : Except String AnalyticsResult).toOption.isNone) = true := rfl
      rw [h1, List.countP_cons, List.length_cons]
      simp only [hp, if_true]
      omega

/-- **C5**: for a batch of `K` responses of which `F` raise during
analysis, `batch_analyze_responses` returns exactly `K - F` records; each
failing task is skipped while every successful task's record is kept, so a
failure never cancels its siblings.  The per-item outcome of awaiting
`analyze_response` is `analyze_one` (an `Except` capturing a raised
exception), and `asyncio.gather(..., return_exceptions=True)` delivers
one outcome per task. -/
theorem C5_batch_failure_isolation
    (analyze_one : LLMResponse → Except String AnalyticsResult)
    (llm_responses : List LLMResponse) :
    (batchAnalyzeResponses analyze_one llm_responses).length
        = llm_responses.length
          - (llm_responses.map analyze_one).countP (fun r => r.toOption.isNone)
  ∧ ∀ r ∈ llm_responses, ∀ a, analyze_one r = .ok a →
      a ∈ batchAnalyzeResponses analyze_one llm_responses := by
  constructor
  · have h := length_filterMap_toOption (llm_responses.map analyze_one)
    have hlen : (llm_responses.map analyze_one).length = llm_responses.length :=
      List.length_map _ _
    simp only [batchAnalyzeResponses]
    omega
  · intro r hr a ha
    simp only [batchAnalyzeResponses]
    exact List.mem_filterMap.mpr ⟨analyze_one r, List.mem_map_of_mem _ hr, by rw [ha]; rfl⟩

theorem C5_batch_failure_isolation_witness :
    (batchAnalyzeResponses demoAnalyzeOne [demoResp1, demoResp2, demoResp3]).length
        = ([demoResp1, demoResp2, demoResp3] : List LLMResponse).length
          - (([demoResp1, demoResp2, demoResp3].map demoAnalyzeOne).countP
              (fun r => r.toOption.isNone))
  ∧ analyzeResponse parseNone demoUser [demoCompetitor] demoResp1 none false (.error "")
      ∈ batchAnalyzeResponses demoAnalyzeOne [demoResp1, demoResp2, demoResp3] :=
  ⟨(C5_batch_failure_isolation demoAnalyzeOne [demoResp1, demoResp2, demoResp3]).1,
   (C5_batch_failure_isolation demoAnalyzeOne [demoResp1, demoResp2, demoResp3]).2
      demoResp1 (by decide) _ rfl⟩

/-- The successes of a task-outcome list, re-wrapped, form a sublist of
the outcome list: filtering exceptions out preserves relative order. -/
theorem filterMap_toOption_sublist (l : List (Except String AnalyticsResult)) :
    ((l.filterMap Except.toOption).map Except.ok).Sublist l := by
  induction l with
  | nil => simp
  | cons x l ih =>
    cases x with
    | ok a =>
      have h1 : List.filterMap Except.toOption (Except.ok a :: l)
          = a :: List.filterMap Except.toOption l := rfl
      rw [h1, List.map_cons]
      exact ih.cons₂ _
    | error e =>
      have h1 : List.filterMap Except.toOption (Except.error e :: l)
          = List.filterMap Except.toOption l := rfl
      rw [h1]
      exact ih.cons _

/-- **C10** (implicit): `batch_analyze_responses` preserves input order.
`asyncio.gather` yields outcomes in task order, and the filtering loop
appends successes in that order, so the returned records, re-wrapped as
successes, form a sublist of the per-response outcome sequence — any two
successfully analyzed responses keep their relative input order in the
returned records. -/
theorem C10_batch_preserves_input_order
    (analyze_one : LLMResponse → Except String AnalyticsResult)
    (llm_responses : List LLMResponse) :
    ((batchAnalyzeResponses analyze_one llm_responses).map Except.ok).Sublist
      (llm_responses.map analyze_one) :=
  filterMap_toOption_sublist (llm_responses.map analyze_one)

/-- **C7**: on a non-empty record list the aggregator's
`user_mention_rate` is the number of records with a positive owner
mention count divided by the number of records (Python float division
modelled as exact rational division). -/
theorem C7_owner_mention_rate (analytics_results : List AnalyticsResult)
    (h : analytics_results ≠ []) :
    (calculatePerformanceMetrics analytics_results).user_mention_rate
      = (analytics_results.countP (fun r => r.user_brand_mentions > 0) : Rat)
        / (analytics_results.length : Rat) := by
  have hne : analytics_results.isEmpty = false := by
    cases analytics_results with
    | nil => exact absurd rfl h
    | cons a l => rfl
  have hpos : 0 < analytics_results.length := List.length_pos.mpr h
  simp only [calculatePerformanceMetrics, hne, Bool.false_eq_true, if_false, if_pos hpos]

/-- Witness: spec §8's synthetic scenario, owner mention counts
`[1, 0, 2, 0]` give a rate of exactly `1/2`. -/
theorem C7_owner_mention_rate_witness :
    (calculatePerformanceMetrics demoRecords).user_mention_rate = 1 / 2 := by
  have h := C7_owner_mention_rate demoRecords (by simp [demoRecords])
  rw [h]
  have hc : demoRecords.countP (fun r => r.user_brand_mentions > 0) = 2 := by decide
  have hl : demoRecords.length = 4 := by decide
  rw [hc, hl]
  norm_num

theorem dictLookup_dictInsert_self (k : String) (v : Nat) (d : List (String × Nat)) :
    dictLookup k (dictInsert k v d) = some v := by
  induction d with
  | nil => simp [dictInsert, dictLookup]
  | cons kv rest ih =>
    by_cases h : kv.1 = k
    · simp [dictInsert, dictLookup, h]
    · simp [dictInsert, dictLookup, h, ih]

theorem dictLookup_dictInsert_ne (k k' : String) (v : Nat) (d : List (String × Nat))
    (h : k' ≠ k) :
    dictLookup k (dictInsert k' v d) = dictLookup k d := by
  induction d with
  | nil => simp [dictInsert, dictLookup, h]
  | cons kv rest ih =>
    by_cases h2 : kv.1 = k'
    · simp [dictInsert, dictLookup, h2, h]
    · by_cases h3 : kv.1 = k
      · simp [dictInsert, dictLookup, h2, h3, Ne.symm h]
      · simp [dictInsert, dictLookup, h2, h3, ih]

/-- After the competitor loop, the mention dictionary maps every processed
competitor name to its deterministic count, and leaves other keys as the
accumulator had them. -/
theorem dictLookup_competitorLoop (text : List Char) (comps : List Competitor)
    (cm : List (String × Nat)) (d : List BrandMention) (k : String) :
    dictLookup k (competitorLoop text comps cm d).1
      = if k ∈ comps.map Competitor.name
        then some ((countBrandMentionsL text k).mention_count)
        else dictLookup k cm := by
  induction comps generalizing cm d with
  | nil => simp [competitorLoop]
  | cons comp rest ih =>
    simp only [competitorLoop]
    rw [ih]
    by_cases hk : k ∈ rest.map Competitor.name
    · simp [hk]
    · by_cases hck : comp.name = k
      · subst hck
        simp [hk, dictLookup_dictInsert_self]
      · have hnot : k ∉ (comp :: rest).map Competitor.name := by
          simp only [List.map_cons, List.mem_cons]
          rintro (hh | hh)
          · exact hck hh.symm
          · exact hk hh
        rw [if_neg hk, dictLookup_dictInsert_ne _ _ _ _ hck, if_neg hnot]

/-- **C1**: every record produced by `analyze_response` satisfies
`total_mentions == owner_mentions + sum(competitor_mentions.values())`,
and its `competitor_mentions` dictionary maps every supplied competitor's
raw name (zero counts included) to that competitor's mention count in the
lower-cased response content. -/
theorem C1_total_mentions_invariant (parse : String → Option JsonValue)
    (user : User) (competitors : List Competitor) (llm_response : LLMResponse)
    (api_key : Option String) (enhanced_analysis : Bool)
    (model_reply : Except String String) :
    (analyzeResponse parse user competitors llm_response api_key
        enhanced_analysis model_reply).total_mentions
      = (analyzeResponse parse user competitors llm_response api_key
          enhanced_analysis model_reply).user_brand_mentions
        + sumValues (analyzeResponse parse user competitors llm_response api_key
            enhanced_analysis model_reply).competitor_mentions
  ∧ ∀ comp ∈ competitors,
      dictLookup comp.name
          (analyzeResponse parse user competitors llm_response api_key
            enhanced_analysis model_reply).competitor_mentions
        = some ((countBrandMentionsL
            (llm_response.response_content.data.map Char.toLower)
            comp.name).mention_count) := by
  constructor
  · rfl
  · intro comp hcomp
    have h := dictLookup_competitorLoop
      (llm_response.response_content.data.map Char.toLower) competitors [] [] comp.name
    have hmem : comp.name ∈ competitors.map Competitor.name :=
      List.mem_map_of_mem _ hcomp
    simp only [analyzeResponse]
    rw [h, if_pos hmem]

theorem C1_total_mentions_invariant_witness :
    (analyzeResponse parseNone demoUser [demoCompetitor] demoResp1 none false
        (.error "")).total_mentions
      = (analyzeResponse parseNone demoUser [demoCompetitor] demoResp1 none false
          (.error "")).user_brand_mentions
        + sumValues (analyzeResponse parseNone demoUser [demoCompetitor] demoResp1
            none false (.error "")).competitor_mentions
  ∧ dictLookup demoCompetitor.name
        (analyzeResponse parseNone demoUser [demoCompetitor] demoResp1 none false
          (.error "")).competitor_mentions
      = some ((countBrandMentionsL
          (demoResp1.response_content.data.map Char.toLower)
          demoCompetitor.name).mention_count) :=
  ⟨(C1_total_mentions_invariant parseNone demoUser [demoCompetitor] demoResp1
      none false (.error "")).1,
   (C1_total_mentions_invariant parseNone demoUser [demoCompetitor] demoResp1
      none false (.error "")).2 demoCompetitor (by decide)⟩

/-- **C6**: with enrichment enabled and an API key present, an
unparsable model reply is stored as `{"raw_analysis": <reply>}` and a
failed model call as `{"error": <message>}`; in both cases the analysis
itself still returns a record (it is a total function of the reply) whose
deterministic mention fields coincide with those of the enrichment-free
analysis. -/
theorem C6_enrichment_degradation (parse : String → Option JsonValue)
    (user : User) (competitors : List Competitor) (llm_response : LLMResponse)
    (api_key : String) (model_reply other_reply : Except String String) :
    ((∀ e, model_reply = .error e →
        (analyzeResponse parse user competitors llm_response (some api_key) true
          model_reply).analysis_metadata = .errorInfo e)
      ∧ (∀ content, model_reply = .ok content → parse content = none →
          (analyzeResponse parse user competitors llm_response (some api_key) true
            model_reply).analysis_metadata = .rawAnalysis content))
  ∧ ((analyzeResponse parse user competitors llm_response (some api_key) true
        model_reply).user_brand_mentions
      = (analyzeResponse parse user competitors llm_response none false
          other_reply).user_brand_mentions
    ∧ (analyzeResponse parse user competitors llm_response (some api_key) true
        model_reply).competitor_mentions
      = (analyzeResponse parse user competitors llm_response none false
          other_reply).competitor_mentions
    ∧ (analyzeResponse parse user competitors llm_response (some api_key) true
        model_reply).total_mentions
      = (analyzeResponse parse user competitors llm_response none false
          other_reply).total_mentions
    ∧ (analyzeResponse parse user competitors llm_response (some api_key) true
        model_reply).mention_details
      = (analyzeResponse parse user competitors llm_response none false
          other_reply).mention_details) := by
  refine ⟨⟨?_, ?_⟩, rfl, rfl, rfl, rfl⟩
  · intro e he
    subst he
    rfl
  · intro content hc hp
    subst hc
    simp only [analyzeResponse, enhancedAnalysisResult]
    rw [hp]
    rfl

theorem C6_enrichment_degradation_witness :
    (analyzeResponse parseNone demoUser [demoCompetitor] demoResp1 (some "key") true
        (.error "model call failed")).analysis_metadata
      = .errorInfo "model call failed"
  ∧ (analyzeResponse parseNone demoUser [demoCompetitor] demoResp1 (some "key") true
        (.ok "not valid json")).analysis_metadata
      = .rawAnalysis "not valid json"
  ∧ (analyzeResponse parseNone demoUser [demoCompetitor] demoResp1 (some "key") true
        (.error "model call failed")).total_mentions
      = (analyzeResponse parseNone demoUser [demoCompetitor] demoResp1 none false
          (.error "")).total_mentions :=
  ⟨(C6_enrichment_degradation parseNone demoUser [demoCompetitor] demoResp1 "key"
      (.error "model call failed") (.error "")).1.1 "model call failed" rfl,
   (C6_enrichment_degradation parseNone demoUser [demoCompetitor] demoResp1 "key"
      (.ok "not valid json") (.error "")).1.2 "not valid json" rfl rfl,
   (C6_enrichment_degradation parseNone demoUser [demoCompetitor] demoResp1 "key"
      (.error "model call failed") (.error "")).2.2.2.1⟩

theorem sumGroupSizes_groupsAdd (k : String) (result : AnalyticsResult)
    (groups : List (String × List AnalyticsResult)) :
    sumGroupSizes (groupsAdd k result groups) = sumGroupSizes groups + 1 := by
  induction groups with
  | nil => simp [groupsAdd, sumGroupSizes]
  | cons g rest ih =>
    obtain ⟨k', rs⟩ := g
    by_cases h : k' = k
    · simp [groupsAdd, h, sumGroupSizes]
      omega
    · simp only [groupsAdd, h, if_false, sumGroupSizes, List.map_cons, List.sum_cons]
      have := ih
      simp only [sumGroupSizes] at this
      omega

/-- Each record whose response resolves adds exactly one grouped record;
unresolved records are skipped. -/
theorem sumGroupSizes_groupByModel (llm_responses : List LLMResponse)
    (results : List AnalyticsResult) (groups : List (String × List AnalyticsResult)) :
    sumGroupSizes (groupByModel llm_responses results groups)
      = sumGroupSizes groups
        + results.countP
            (fun r => (llm_responses.find?
              (fun resp => resp.id == r.llm_response_id)).isSome) := by
  induction results generalizing groups with
  | nil => simp [groupByModel]
  | cons result rest ih =>
    simp only [groupByModel]
    cases hf : llm_responses.find? (fun resp => resp.id == result.llm_response_id) with
    | none =>
      rw [ih, List.countP_cons]
      simp [hf]
    | some resp =>
      rw [ih, sumGroupSizes_groupsAdd, List.countP_cons]
      simp [hf]
      omega

/-- The aggregator's `total_responses` is the size of its input. -/
theorem total_responses_eq_length (rs : List AnalyticsResult) :
    (calculatePerformanceMetrics rs).total_responses = rs.length := by
  cases rs with
  | nil => rfl
  | cons r rest => rfl

/-- **C8**: `compare_model_performance` silently skips records whose
`response_id` resolves to no response, and each resolved record lands in
exactly one `(provider, model)` group, so the sum of `total_responses`
over all returned metrics equals the number of resolvable input records
and is at most the number of input records. -/
theorem C8_model_comparator_partition (analytics_results : List AnalyticsResult)
    (llm_responses : List LLMResponse) :
    ((compareModelPerformance analytics_results llm_responses).map
        (fun kv => kv.2.total_responses)).sum
      = analytics_results.countP
          (fun r => (llm_responses.find?
            (fun resp => resp.id == r.llm_response_id)).isSome)
  ∧ ((compareModelPerformance analytics_results llm_responses).map
        (fun kv => kv.2.total_responses)).sum
      ≤ analytics_results.length := by
  have key : ((compareModelPerformance analytics_results llm_responses).map
      (fun kv => kv.2.total_responses)).sum
      = analytics_results.countP
          (fun r => (llm_responses.find?
            (fun resp => resp.id == r.llm_response_id)).isSome) := by
    simp only [compareModelPerformance, List.map_map]
    have hcongr : ((groupByModel llm_responses analytics_results []).map
        ((fun kv : String × PerformanceMetrics => kv.2.total_responses)
          ∘ (fun kv : String × List AnalyticsResult =>
              (kv.1, calculatePerformanceMetrics kv.2))))
        = (groupByModel llm_responses analytics_results []).map
            (fun kv => kv.2.length) := by
      apply List.map_congr_left
      intro kv _
      exact total_responses_eq_length kv.2
    rw [hcongr]
    have h := sumGroupSizes_groupByModel llm_responses analytics_results []
    simpa [sumGroupSizes] using h
  exact ⟨key, key ▸ List.countP_le_length _⟩

theorem collapseWs_cons₂ (a b : Char) (r : List Char) :
    collapseWs (a :: b :: r)
      = if pyIsSpace a && pyIsSpace b then collapseWs (b :: r)
        else (if pyIsSpace a then ' ' else a) :: collapseWs (b :: r) := rfl

theorem collapseWs_singleton (a : Char) :
    collapseWs [a] = [if pyIsSpace a then ' ' else a] := rfl

theorem noDoubleWs_cons₂ (a b : Char) (r : List Char) :
    noDoubleWs (a :: b :: r)
      = ((!(pyIsSpace a && pyIsSpace b)) && noDoubleWs (b :: r)) := rfl

theorem collapseWs_length_le (l : List Char) : (collapseWs l).length ≤ l.length := by
  induction l with
  | nil => simp [collapseWs]
  | cons a rest ih =>
    cases rest with
    | nil => simp [collapseWs_singleton]
    | cons b r =>
      by_cases h : (pyIsSpace a && pyIsSpace b) = true
      · rw [collapseWs_cons₂, if_pos h]
        calc (collapseWs (b :: r)).length ≤ (b :: r).length := ih
          _ ≤ (a :: b :: r).length := by simp
      · rw [collapseWs_cons₂, if_neg h, List.length_cons, List.length_cons]
        exact Nat.succ_le_succ ih

theorem collapseWs_cons_not_space (b : Char) (r : List Char) (hb : pyIsSpace b = false) :
    ∃ t, collapseWs (b :: r) = b :: t := by
  cases r with
  | nil => exact ⟨[], by rw [collapseWs_singleton, hb]; rfl⟩
  | cons c r' =>
    refine ⟨collapseWs (c :: r'), ?_⟩
    rw [collapseWs_cons₂, hb]
    rfl

/-- Collapsing whitespace runs leaves no two adjacent whitespace
characters. -/
theorem noDoubleWs_collapseWs (l : List Char) : noDoubleWs (collapseWs l) = true := by
  induction l with
  | nil => rfl
  | cons a rest ih =>
    cases rest with
    | nil => rw [collapseWs_singleton]; rfl
    | cons b r =>
      by_cases h : (pyIsSpace a && pyIsSpace b) = true
      · rw [collapseWs_cons₂, if_pos h]
        exact ih
      · rw [collapseWs_cons₂, if_neg h]
        by_cases ha : pyIsSpace a = true
        · have hb : pyIsSpace b = false := by
            cases hsp : pyIsSpace b with
            | false => rfl
            | true => exact absurd (by rw [ha, hsp]; rfl) h
          obtain ⟨t, ht⟩ := collapseWs_cons_not_space b r hb
          rw [ht, if_pos ha, noDoubleWs_cons₂, hb]
          have : noDoubleWs (b :: t) = true := by rw [← ht]; exact ih
          rw [this]
          rfl
        · have ha' : pyIsSpace a = false := by
            cases hsp : pyIsSpace a with
            | false => rfl
            | true => exact absurd hsp ha
          rw [if_neg ha]
          cases hX : collapseWs (b :: r) with
          | nil => rfl
          | cons x t =>
            rw [noDoubleWs_cons₂, ha']
            have : noDoubleWs (x :: t) = true := by rw [← hX]; exact ih
            rw [this]
            rfl

theorem pyStrip_length_le (l : List Char) : (pyStrip l).length ≤ l.length := by
  unfold pyStrip
  calc (((l.dropWhile pyIsSpace).reverse.dropWhile pyIsSpace).reverse).length
      = ((l.dropWhile pyIsSpace).reverse.dropWhile pyIsSpace).length :=
        List.length_reverse _
    _ ≤ (l.dropWhile pyIsSpace).reverse.length :=
        ((l.dropWhile pyIsSpace).reverse.dropWhile_sublist pyIsSpace).length_le
    _ = (l.dropWhile pyIsSpace).length := List.length_reverse _
    _ ≤ l.length := (l.dropWhile_sublist pyIsSpace).length_le

/-- The context window is at most 50 characters each side of the match,
clamped, so a snippet never exceeds the match length plus 100. -/
theorem snippetAt_length_le (text : List Char) (patLen p : Nat) :
    (snippetAt text patLen p).length ≤ patLen + 100 := by
  simp only [snippetAt]
  have h1 := collapseWs_length_le (pyStrip ((text.drop (p - 50)).take
    (min text.length (p + patLen + 50) - (p - 50))))
  have h2 := pyStrip_length_le ((text.drop (p - 50)).take
    (min text.length (p + patLen + 50) - (p - 50)))
  have h3 : ((text.drop (p - 50)).take
      (min text.length (p + patLen + 50) - (p - 50))).length
      ≤ min text.length (p + patLen + 50) - (p - 50) := by
    rw [List.length_take]
    exact Nat.min_le_left _ _
  have h4 : min text.length (p + patLen + 50) ≤ p + patLen + 50 :=
    Nat.min_le_right _ _
  omega

/-- **C3, counterexample**: the normalized brand `"ab"` (length 2) in a
text of 102 non-whitespace characters produces a context snippet of
length 102 > 101 — the window is 50 + match + 50 and the match itself is
at least 2 characters, so 101 is not an upper bound. -/
theorem C3_snippet_length_counterexample :
    (countBrandMentions snippetCexText "ab").context_snippets = [snippetCexText]
  ∧ snippetCexText.length = 102
  ∧ ¬ ∀ s ∈ (countBrandMentions snippetCexText "ab").context_snippets,
        s.length ≤ 101 := by
  decide

/-- **C3, amended**: every context snippet has length at most the
normalized brand name's length plus 100 (50 characters of context each
side of the literal match, clamped to the text), and contains no run of
two or more consecutive whitespace characters. -/
theorem C3_snippet_bounds_amended (text brand_name s : String)
    (h : s ∈ (countBrandMentions text brand_name).context_snippets) :
    s.length ≤ (cleanBrandName brand_name).length + 100
  ∧ noDoubleWs s.data = true := by
  simp only [countBrandMentions, countBrandMentionsL] at h
  split at h
  · exact absurd h (List.not_mem_nil s)
  · obtain ⟨p, hp, heq⟩ := List.mem_map.mp h
    subst heq
    constructor
    · exact snippetAt_length_le text.data (cleanBrandNameL brand_name.data).length p
    · exact noDoubleWs_collapseWs _

theorem C3_snippet_bounds_amended_witness :
    ("best mocha in town" : String)
        ∈ (countBrandMentions "best mocha in town" "Mocha").context_snippets
  ∧ ("best mocha in town" : String).length ≤ (cleanBrandName "Mocha").length + 100
  ∧ noDoubleWs ("best mocha in town" : String).data = true :=
  ⟨by decide,
   C3_snippet_bounds_amended "best mocha in town" "Mocha" "best mocha in town"
     (by decide)⟩

theorem toNat_ofNat_valid {n : Nat} (h : n.isValidChar) : (Char.ofNat n).toNat = n := by
  rw [Char.ofNat, dif_pos h]
  rfl

/-- ASCII lower-casing is idempotent (Python's `str.lower` on the
characters the normalizer produces). -/
theorem toLower_idem (c : Char) : c.toLower.toLower = c.toLower := by
  unfold Char.toLower
  by_cases h : c.toNat ≥ 65 ∧ c.toNat ≤ 90
  · rw [if_pos h]
    have hv : (c.toNat + 32).isValidChar := Or.inl (by omega)
    rw [toNat_ofNat_valid hv, if_neg (by omega)]
  · rw [if_neg h, if_neg h]

theorem map_eq_self_of_fix {f : Char → Char} (l : List Char)
    (h : ∀ c ∈ l, f c = c) : l.map f = l := by
  induction l with
  | nil => rfl
  | cons a t ih =>
    rw [List.map_cons, h a (List.mem_cons_self _ _),
      ih (fun c hc => h c (List.mem_cons_of_mem _ hc))]

theorem mem_of_mem_pyStrip {c : Char} {l : List Char} (h : c ∈ pyStrip l) : c ∈ l := by
  unfold pyStrip at h
  rw [List.mem_reverse] at h
  have h1 : c ∈ (l.dropWhile pyIsSpace).reverse :=
    ((l.dropWhile pyIsSpace).reverse.dropWhile_sublist pyIsSpace).subset h
  rw [List.mem_reverse] at h1
  exact (l.dropWhile_sublist pyIsSpace).subset h1

/-- Every non-whitespace character of the substituted, stripped,
lower-cased name is a kept character and is fixed by lower-casing. -/
theorem subbed_char_fix (l : List Char) :
    ∀ c ∈ (pyStrip (l.map Char.toLower)).map (fun c => if keepChar c then c else ' '),
      pyIsSpace c = false → keepChar c = true ∧ Char.toLower c = c := by
  intro c hc hsp
  obtain ⟨z, hz, hzc⟩ := List.mem_map.mp hc
  by_cases hk : keepChar z = true
  · rw [if_pos hk] at hzc
    subst hzc
    refine ⟨hk, ?_⟩
    obtain ⟨y, _, hy⟩ := List.mem_map.mp (mem_of_mem_pyStrip hz)
    rw [← hy]
    exact toLower_idem y
  · rw [if_neg hk] at hzc
    rw [← hzc] at hsp
    exact absurd hsp (by simp [pyIsSpace])

/-- Every character of every token produced by `splitWs` is
non-whitespace and inherits any property holding of the non-whitespace
characters of the split input. -/
theorem splitWsAux_token_chars (P : Char → Prop) (l : List Char) :
    ∀ acc, (∀ c ∈ l, pyIsSpace c = false → P c) →
      (∀ c ∈ acc, pyIsSpace c = false ∧ P c) →
      ∀ w ∈ splitWsAux l acc, ∀ c ∈ w, pyIsSpace c = false ∧ P c := by
  induction l with
  | nil =>
    intro acc _ hacc w hw c hc
    simp only [splitWsAux] at hw
    split at hw
    · exact absurd hw (List.not_mem_nil w)
    · rw [List.mem_singleton] at hw
      subst hw
      exact hacc c (List.mem_reverse.mp hc)
  | cons c₀ cs ih =>
    intro acc hl hacc w hw c hc
    simp only [splitWsAux] at hw
    by_cases h0 : pyIsSpace c₀ = true
    · rw [if_pos h0] at hw
      split at hw
      · exact ih [] (fun d hd => hl d (List.mem_cons_of_mem _ hd))
          (by intro d hd; exact absurd hd (List.not_mem_nil d)) w hw c hc
      · rcases List.mem_cons.mp hw with hw1 | hw2
        · subst hw1
          exact hacc c (List.mem_reverse.mp hc)
        · exact ih [] (fun d hd => hl d (List.mem_cons_of_mem _ hd))
            (by intro d hd; exact absurd hd (List.not_mem_nil d)) w hw2 c hc
    · rw [if_neg h0] at hw
      have h0' : pyIsSpace c₀ = false := by
        cases hb : pyIsSpace c₀ with
        | false => rfl
        | true => exact absurd hb h0
      refine ih (c₀ :: acc) (fun d hd => hl d (List.mem_cons_of_mem _ hd)) ?_ w hw c hc
      intro d hd
      rcases List.mem_cons.mp hd with hd1 | hd2
      · subst hd1
        exact ⟨h0', hl d (List.mem_cons_self _ _) h0'⟩
      · exact hacc d hd2

/-- Characters of the normalized name's surviving tokens: non-whitespace,
kept by the substitution, fixed by lower-casing. -/
theorem cleanBrandNameL_word_chars (l : List Char) :
    ∀ w ∈ splitWs ((pyStrip (l.map Char.toLower)).map
        (fun c => if keepChar c then c else ' ')),
      ∀ c ∈ w, pyIsSpace c = false ∧ (keepChar c = true ∧ Char.toLower c = c) := by
  intro w hw
  exact splitWsAux_token_chars (fun c => keepChar c = true ∧ Char.toLower c = c) _ []
    (subbed_char_fix l) (by intro d hd; exact absurd hd (List.not_mem_nil d)) w hw

theorem joinWords_cons₂ (w x : List Char) (ws : List (List Char)) :
    joinWords (w :: x :: ws) = w ++ ' ' :: joinWords (x :: ws) := rfl

theorem mem_joinWords (ws : List (List Char)) :
    ∀ c ∈ joinWords ws, c = ' ' ∨ ∃ w ∈ ws, c ∈ w := by
  induction ws with
  | nil => intro c hc; exact absurd hc (List.not_mem_nil c)
  | cons w rest ih =>
    cases rest with
    | nil =>
      intro c hc
      exact Or.inr ⟨w, List.mem_cons_self _ _, hc⟩
    | cons x rest' =>
      intro c hc
      rw [joinWords_cons₂, List.mem_append] at hc
      rcases hc with hc | hc
      · exact Or.inr ⟨w, List.mem_cons_self _ _, hc⟩
      · rcases List.mem_cons.mp hc with hc1 | hc2
        · exact Or.inl hc1
        · rcases ih c hc2 with h | ⟨w', hw', hcw'⟩
          · exact Or.inl h
          · exact Or.inr ⟨w', List.mem_cons_of_mem _ hw', hcw'⟩

theorem joinWords_cons_ne_nil (w : List Char) (ws : List (List Char)) (hw : w ≠ []) :
    joinWords (w :: ws) ≠ [] := by
  cases ws with
  | nil => exact hw
  | cons x ws' =>
    rw [joinWords_cons₂]
    simp

theorem joinWords_cons_head? (w : List Char) (ws : List (List Char)) (hw : w ≠ []) :
    (joinWords (w :: ws)).head? = w.head? := by
  cases ws with
  | nil => rfl
  | cons x ws' =>
    rw [joinWords_cons₂]
    cases w with
    | nil => exact absurd rfl hw
    | cons a w' => rfl

/-- The last character of a join of non-empty words is the last character
of some word. -/
theorem joinWords_reverse_head? (ws : List (List Char))
    (h : ∀ w ∈ ws, w ≠ []) (hne : ws ≠ []) :
    ∃ w ∈ ws, ∃ c ∈ w, (joinWords ws).reverse.head? = some c := by
  induction ws with
  | nil => exact absurd rfl hne
  | cons w rest ih =>
    cases rest with
    | nil =>
      have hw : w ≠ [] := h w (List.mem_cons_self _ _)
      cases hrev : w.reverse with
      | nil => exact absurd (List.reverse_eq_nil_iff.mp hrev) hw
      | cons c t =>
        refine ⟨w, List.mem_cons_self _ _, c, ?_, ?_⟩
        · rw [← List.mem_reverse, hrev]
          exact List.mem_cons_self _ _
        · show (joinWords [w]).reverse.head? = some c
          rw [show joinWords [w] = w from rfl, hrev]
          rfl
    | cons x rest' =>
      have hJ : joinWords (x :: rest') ≠ [] :=
        joinWords_cons_ne_nil x rest' (h x (List.mem_cons_of_mem _ (List.mem_cons_self _ _)))
      obtain ⟨w', hw', c, hcw', hhead⟩ :=
        ih (fun v hv => h v (List.mem_cons_of_mem _ hv)) (by simp)
      refine ⟨w', List.mem_cons_of_mem _ hw', c, hcw', ?_⟩
      rw [joinWords_cons₂, List.reverse_append, List.reverse_cons]
      cases hrevJ : (joinWords (x :: rest')).reverse with
      | nil => exact absurd (List.reverse_eq_nil_iff.mp hrevJ) hJ
      | cons d t =>
        rw [hrevJ] at hhead
        have hd : d = c := by
          simpa using hhead
        rw [List.cons_append, List.cons_append, List.head?_cons, hd]

theorem dropWhile_eq_self_of_head (p : Char → Bool) (l : List Char)
    (h : ∀ c, l.head? = some c → p c = false) : l.dropWhile p = l := by
  cases l with
  | nil => rfl
  | cons a t =>
    rw [List.dropWhile_cons, h a rfl]
    simp

theorem pyStrip_eq_self (l : List Char)
    (hhead : ∀ c, l.head? = some c → pyIsSpace c = false)
    (hlast : ∀ c, l.reverse.head? = some c → pyIsSpace c = false) :
    pyStrip l = l := by
  unfold pyStrip
  rw [dropWhile_eq_self_of_head pyIsSpace l hhead,
    dropWhile_eq_self_of_head pyIsSpace l.reverse hlast, List.reverse_reverse]

/-- Splitting consumes a whitespace-free token placed at the front of the
input by moving it into the accumulator. -/
theorem splitWsAux_consume_token (w : List Char)
    (hw : ∀ c ∈ w, pyIsSpace c = false) :
    ∀ (l acc : List Char), splitWsAux (w ++ l) acc = splitWsAux l (w.reverse ++ acc) := by
  induction w with
  | nil => intro l acc; simp
  | cons c w' ih =>
    intro l acc
    have hc : pyIsSpace c = false := hw c (List.mem_cons_self _ _)
    rw [List.cons_append]
    show splitWsAux (c :: (w' ++ l)) acc = _
    simp only [splitWsAux, hc, Bool.false_eq_true, if_false]
    rw [ih (fun d hd => hw d (List.mem_cons_of_mem _ hd)) l (c :: acc)]
    congr 1
    rw [List.reverse_cons, List.append_assoc]
    rfl

/-- `str.split()` inverts `' '.join` on non-empty whitespace-free words. -/
theorem splitWs_joinWords (ws : List (List Char))
    (hne : ∀ w ∈ ws, w ≠ []) (hsp : ∀ w ∈ ws, ∀ c ∈ w, pyIsSpace c = false) :
    splitWs (joinWords ws) = ws := by
  induction ws with
  | nil => rfl
  | cons w rest ih =>
    have hw : w ≠ [] := hne w (List.mem_cons_self _ _)
    have hwrev : w.reverse.isEmpty = false := by
      cases hrev : w.reverse with
      | nil => exact absurd (List.reverse_eq_nil_iff.mp hrev) hw
      | cons a t => rfl
    cases rest with
    | nil =>
      show splitWsAux (joinWords [w]) [] = [w]
      rw [show joinWords [w] = w from rfl]
      have h := splitWsAux_consume_token w (hsp w (List.mem_cons_self _ _)) [] []
      rw [List.append_nil] at h
      rw [h]
      simp only [splitWsAux, List.append_nil, hwrev, Bool.false_eq_true, if_false]
      rw [List.reverse_reverse]
    | cons x rest' =>
      show splitWsAux (joinWords (w :: x :: rest')) [] = w :: x :: rest'
      rw [joinWords_cons₂]
      rw [splitWsAux_consume_token w (hsp w (List.mem_cons_self _ _)) _ []]
      rw [List.append_nil]
      show (if pyIsSpace ' ' = true then _ else _) = w :: x :: rest'
      simp only [show pyIsSpace ' ' = true from rfl, if_true, hwrev,
        Bool.false_eq_true, if_false]
      rw [List.reverse_reverse]
      exact congrArg (w :: ·)
        (ih (fun v hv => hne v (List.mem_cons_of_mem _ hv))
            (fun v hv => hsp v (List.mem_cons_of_mem _ hv)))

theorem pyStrip_joinWords (ws : List (List Char))
    (hne : ∀ w ∈ ws, w ≠ []) (hsp : ∀ w ∈ ws, ∀ c ∈ w, pyIsSpace c = false) :
    pyStrip (joinWords ws) = joinWords ws := by
  cases ws with
  | nil => rfl
  | cons w rest =>
    apply pyStrip_eq_self
    · intro c hc
      rw [joinWords_cons_head? w rest (hne w (List.mem_cons_self _ _))] at hc
      cases w with
      | nil => exact absurd rfl (hne _ (List.mem_cons_self _ _))
      | cons a w' =>
        rw [List.head?_cons] at hc
        injection hc with hc
        subst hc
        exact hsp _ (List.mem_cons_self _ _) _ (List.mem_cons_self _ _)
    · intro c hc
      obtain ⟨w', hw', c', hc'w, hhead⟩ :=
        joinWords_reverse_head? (w :: rest) hne (by simp)
      rw [hhead] at hc
      injection hc with hc
      subst hc
      exact hsp w' hw' c' hc'w

/-- Normalizing a join of tokens that already survived normalization is
the identity: every pipeline stage fixes it. -/
theorem cleanBrandNameL_joinWords (ws : List (List Char))
    (hchar : ∀ w ∈ ws, ∀ c ∈ w,
      pyIsSpace c = false ∧ (keepChar c = true ∧ Char.toLower c = c))
    (hkeep : ∀ w ∈ ws, keepWord w = true) :
    cleanBrandNameL (joinWords ws) = joinWords ws := by
  have hne : ∀ w ∈ ws, w ≠ [] := by
    intro w hw hnil
    have hlen := (of_decide_eq_true (hkeep w hw)).2.2
    rw [hnil] at hlen
    simp at hlen
  have hsp : ∀ w ∈ ws, ∀ c ∈ w, pyIsSpace c = false :=
    fun w hw c hc => (hchar w hw c hc).1
  have hA : (joinWords ws).map Char.toLower = joinWords ws := by
    apply map_eq_self_of_fix
    intro c hc
    rcases mem_joinWords ws c hc with h | ⟨w, hw, hcw⟩
    · subst h; rfl
    · exact (hchar w hw c hcw).2.2
  have hB : pyStrip (joinWords ws) = joinWords ws := pyStrip_joinWords ws hne hsp
  have hC : (joinWords ws).map (fun c => if keepChar c then c else ' ')
      = joinWords ws := by
    apply map_eq_self_of_fix
    intro c hc
    rcases mem_joinWords ws c hc with h | ⟨w, hw, hcw⟩
    · subst h; rfl
    · rw [if_pos (hchar w hw c hcw).2.1]
  have hD : splitWs (joinWords ws) = ws := splitWs_joinWords ws hne hsp
  have hE : ws.filter keepWord = ws :=
    List.filter_eq_self.mpr (fun w hw => hkeep w hw)
  show joinWords ((splitWs ((pyStrip ((joinWords ws).map Char.toLower)).map
    (fun c => if keepChar c then c else ' '))).filter keepWord) = joinWords ws
  rw [hA, hB, hC, hD, hE]

theorem cleanBrandNameL_idem (l : List Char) :
    cleanBrandNameL (cleanBrandNameL l) = cleanBrandNameL l := by
  apply cleanBrandNameL_joinWords
  · intro w hw
    exact cleanBrandNameL_word_chars l w (List.mem_of_mem_filter hw)
  · intro w hw
    exact List.of_mem_filter hw

/-- **C9**: the name normalizer is idempotent —
`normalize(normalize(x)) == normalize(x)` for every input string. -/
theorem C9_normalize_idempotent (x : String) :
    cleanBrandName (cleanBrandName x) = cleanBrandName x :=
  congrArg String.mk (cleanBrandNameL_idem x.data)

end GeoAnalytics
